import Mathlib

/-!
Shallow embedding of the Codon-Usage-Analyzer core (`main.py`).
Characters are modelled as Unicode code points (`Nat`); Python strings as
`List Nat`.  `str` converts a Lean string literal to this representation.
-/

namespace CodonAnalyzer

/-- Convert a Lean string literal into the code-point list representation. -/
def str (s : String) : List Nat := s.toList.map Char.toNat

/-- Python `str.upper` acting on one character, returning the (possibly
multi-character) uppercase mapping as a string.  The mapping is exact on the
whole Latin-1 range 0–255: ASCII `a`–`z` shift down by 32; the micro sign
µ (181) maps to Greek capital Mu (924); sharp s ß (223) expands to the
two-character string `SS` — the one length-changing case in this range; ÿ
(255) maps to Ÿ (376); the Latin-1 lowercase letters à–þ (224–254, except
the division sign 247) shift down by 32.  Code points at or above 256 are
modelled as unchanged; the only such characters this development reasons
about (e.g. 924) are fixed points of `str.upper` as well. -/
def pyUpperChar (c : Nat) : List Nat :=
  if 97 ≤ c ∧ c ≤ 122 then [c - 32]
  else if c = 181 then [924]
  else if c = 223 then [83, 83]
  else if c = 255 then [376]
  else if 224 ≤ c ∧ c ≤ 254 ∧ c ≠ 247 then [c - 32]
  else [c]

/-- Python `str.upper` on a whole string: concatenation of the per-character
uppercase mappings (so one-to-many expansions lengthen the string). -/
def pyUpper (s : List Nat) : List Nat := s.flatMap pyUpperChar

/-- Python `s.replace(ch, "")` for a single-character pattern: drop every
occurrence of the character `ch`. -/
def removeChar (ch : Nat) (s : List Nat) : List Nat := s.filter (fun c => c ≠ ch)

/-- `clean_sequence` from `main.py`:
`seq.upper().replace(" ", "").replace("\n", "")` followed by
`seq[:len(seq) - (len(seq) % 3)]` (trim to a multiple of 3).
Code point 32 is the space character, 10 the newline. -/
def clean_sequence (s : List Nat) : List Nat :=
  let t := removeChar 10 (removeChar 32 (pyUpper s))
  t.take (t.length - t.length % 3)

/-- `split_into_codons` from `main.py`:
`[seq[i:i+3] for i in range(0, len(seq), 3)]`.  On a string whose length is
not a multiple of 3 the final slice is the 1- or 2-character remainder, just
as Python slicing produces. -/
def split_into_codons : List Nat → List (List Nat)
  | [] => []
  | [a] => [[a]]
  | [a, b] => [[a, b]]
  | a :: b :: c :: rest => [a, b, c] :: split_into_codons rest

/-- Python `dict.get(k, d)`: first entry whose key equals `k`, else the
default `d`.  (Python dict keys are unique, so first-match lookup agrees.) -/
def dictGet {κ α : Type} [DecidableEq κ] (t : List (κ × α)) (k : κ) (d : α) : α :=
  match t with
  | [] => d
  | (q, v) :: rest => if q = k then v else dictGet rest k d

/-- Modelled from the spec: `CODON_TABLE` lives in `codon_table.py`, which is
not part of the sources at hand; per the spec it is the standard codon table
with "64 real codon entries (all combinations of A/C/G/T)", each mapping to a
single-letter amino-acid code, the three stop codons TAA, TAG, TGA mapping to
the stop marker `_` (the character the amino-acid name tables in `main.py`
label `Stop`). -/
def CODON_TABLE : List (List Nat × List Nat) :=
  [ (str "TTT", str "F"), (str "TTC", str "F"), (str "TTA", str "L"), (str "TTG", str "L")
  , (str "CTT", str "L"), (str "CTC", str "L"), (str "CTA", str "L"), (str "CTG", str "L")
  , (str "ATT", str "I"), (str "ATC", str "I"), (str "ATA", str "I"), (str "ATG", str "M")
  , (str "GTT", str "V"), (str "GTC", str "V"), (str "GTA", str "V"), (str "GTG", str "V")
  , (str "TCT", str "S"), (str "TCC", str "S"), (str "TCA", str "S"), (str "TCG", str "S")
  , (str "CCT", str "P"), (str "CCC", str "P"), (str "CCA", str "P"), (str "CCG", str "P")
  , (str "ACT", str "T"), (str "ACC", str "T"), (str "ACA", str "T"), (str "ACG", str "T")
  , (str "GCT", str "A"), (str "GCC", str "A"), (str "GCA", str "A"), (str "GCG", str "A")
  , (str "TAT", str "Y"), (str "TAC", str "Y"), (str "TAA", str "_"), (str "TAG", str "_")
  , (str "CAT", str "H"), (str "CAC", str "H"), (str "CAA", str "Q"), (str "CAG", str "Q")
  , (str "AAT", str "N"), (str "AAC", str "N"), (str "AAA", str "K"), (str "AAG", str "K")
  , (str "GAT", str "D"), (str "GAC", str "D"), (str "GAA", str "E"), (str "GAG", str "E")
  , (str "TGT", str "C"), (str "TGC", str "C"), (str "TGA", str "_"), (str "TGG", str "W")
  , (str "CGT", str "R"), (str "CGC", str "R"), (str "CGA", str "R"), (str "CGG", str "R")
  , (str "AGT", str "S"), (str "AGC", str "S"), (str "AGA", str "R"), (str "AGG", str "R")
  , (str "GGT", str "G"), (str "GGC", str "G"), (str "GGA", str "G"), (str "GGG", str "G") ]

/-- `AA_ABBREV` from `main.py`: single-letter amino-acid code to 3-letter
abbreviation, including the unknown marker `X` and the stop marker `_`. -/
def AA_ABBREV : List (Nat × List Nat) :=
  [ (65, str "Ala"), (82, str "Arg"), (78, str "Asn"), (68, str "Asp"), (67, str "Cys")
  , (81, str "Gln"), (69, str "Glu"), (71, str "Gly"), (72, str "His"), (73, str "Ile")
  , (76, str "Leu"), (75, str "Lys"), (77, str "Met"), (70, str "Phe"), (80, str "Pro")
  , (83, str "Ser"), (84, str "Thr"), (87, str "Trp"), (89, str "Tyr"), (86, str "Val")
  , (88, str "???"), (95, str "Stop") ]

/-- `translate_codons` from `main.py`:
the empty-string join of `CODON_TABLE.get(codon, "X")` over the codons. -/
def translate_codons (codons : List (List Nat)) : List Nat :=
  (codons.map (fun c => dictGet CODON_TABLE c (str "X"))).flatten

/-- One `codon_count[codon] += 1` step on a `defaultdict(int)` represented as
an insertion-ordered association list: bump the entry if the key is present,
otherwise insert it at the end with count `0 + 1 = 1`. -/
def bump (m : List (List Nat × Nat)) (c : List Nat) : List (List Nat × Nat) :=
  match m with
  | [] => [(c, 1)]
  | (k, v) :: rest => if k = c then (k, v + 1) :: rest else (k, v) :: bump rest c

/-- `count_codon_usage` from `main.py`: fold the `+= 1` update over the codon
list, starting from the empty `defaultdict(int)`. -/
def count_codon_usage (codons : List (List Nat)) : List (List Nat × Nat) :=
  codons.foldl bump []

/-- Reading a key from the `defaultdict(int)`: a missing key yields the
default `int()` value 0 rather than an error. -/
def ddGet (m : List (List Nat × Nat)) (k : List Nat) : Nat := dictGet m k 0

/-- Rounding to 2 decimal places over exact rationals, standing in for
Python `round(x, 2)`.  The spec leaves the tie-breaking mode open; this is
round-half-up: `⌊y + 1/2⌋` agrees with Mathlib `round` by `round_eq`. -/
def round2 (x : ℚ) : ℚ := (⌊x * 100 + 1 / 2⌋ : ℤ) / 100

/-- `calculate_gc_content` from `main.py`: count the characters `G` (71) and
`C` (67), return 0 for the empty string, else `round(((g+c)/total)*100, 2)`. -/
def calculate_gc_content (s : List Nat) : ℚ :=
  let g := s.count 71
  let c := s.count 67
  let total := s.length
  if total = 0 then 0 else round2 (((g : ℚ) + (c : ℚ)) / (total : ℚ) * 100)

/-! ### Helper lemmas about `clean_sequence` -/

theorem pyUpperChar_self (d : Nat) (h1 : ¬(97 ≤ d ∧ d ≤ 122)) (h2 : d ≠ 181)
    (h3 : d ≠ 223) (h4 : d ≠ 255) (h5 : ¬(224 ≤ d ∧ d ≤ 254 ∧ d ≠ 247)) :
    pyUpperChar d = [d] := by
  simp only [pyUpperChar, if_neg h1, if_neg h2, if_neg h3, if_neg h4, if_neg h5]

theorem pyUpperChar_fixed (c : Nat) : ∀ d ∈ pyUpperChar c, pyUpperChar d = [d] := by
  intro d hd
  have hcases : (97 ≤ c ∧ c ≤ 122 ∧ d = c - 32) ∨ d = 924 ∨ d = 83 ∨ d = 376
      ∨ (224 ≤ c ∧ c ≤ 254 ∧ c ≠ 247 ∧ d = c - 32)
      ∨ (d = c ∧ ¬(97 ≤ c ∧ c ≤ 122) ∧ c ≠ 181 ∧ c ≠ 223 ∧ c ≠ 255
          ∧ ¬(224 ≤ c ∧ c ≤ 254 ∧ c ≠ 247)) := by
    simp only [pyUpperChar] at hd
    split_ifs at hd with h1 h2 h3 h4 h5 <;> simp at hd <;> tauto
  rcases hcases with ⟨ha, hb, rfl⟩ | rfl | rfl | rfl | ⟨ha, hb, hc, rfl⟩ | ⟨rfl, h1, h2, h3, h4, h5⟩
  · exact pyUpperChar_self _ (by omega) (by omega) (by omega) (by omega) (by omega)
  · exact pyUpperChar_self _ (by omega) (by omega) (by omega) (by omega) (by omega)
  · exact pyUpperChar_self _ (by omega) (by omega) (by omega) (by omega) (by omega)
  · exact pyUpperChar_self _ (by omega) (by omega) (by omega) (by omega) (by omega)
  · exact pyUpperChar_self _ (by omega) (by omega) (by omega) (by omega) (by omega)
  · exact pyUpperChar_self _ h1 h2 h3 h4 h5

theorem flatMap_pyUpperChar_eq_self (l : List Nat)
    (h : ∀ d ∈ l, pyUpperChar d = [d]) : l.flatMap pyUpperChar = l := by
  induction l with
  | nil => rfl
  | cons a t ih =>
    rw [List.flatMap_cons, h a (List.mem_cons_self _ _),
      ih (fun d hd => h d (List.mem_cons_of_mem _ hd))]
    rfl

theorem pyUpper_mem_fixed (s : List Nat) :
    ∀ c ∈ pyUpper s, pyUpperChar c = [c] := by
  intro c hc
  obtain ⟨c0, _, hc0⟩ := List.mem_flatMap.mp hc
  exact pyUpperChar_fixed c0 c hc0

theorem pyUpper_length_of_single (s : List Nat)
    (h : ∀ c ∈ s, (pyUpperChar c).length = 1) : (pyUpper s).length = s.length := by
  induction s with
  | nil => rfl
  | cons a t ih =>
    simp only [pyUpper, List.flatMap_cons, List.length_append] at ih ⊢
    rw [h a (List.mem_cons_self _ _), ih (fun c hc => h c (List.mem_cons_of_mem _ hc))]
    simp only [List.length_cons]
    omega

theorem clean_sequence_length_mod (s : List Nat) : (clean_sequence s).length % 3 = 0 := by
  simp only [clean_sequence, List.length_take]
  omega

theorem clean_sequence_length_le (s : List Nat)
    (h : ∀ c ∈ s, (pyUpperChar c).length = 1) :
    (clean_sequence s).length ≤ s.length := by
  simp only [clean_sequence, List.length_take]
  have h1 : (removeChar 10 (removeChar 32 (pyUpper s))).length ≤ s.length := by
    calc (removeChar 10 (removeChar 32 (pyUpper s))).length
        ≤ (removeChar 32 (pyUpper s)).length := List.length_filter_le _ _
      _ ≤ (pyUpper s).length := List.length_filter_le _ _
      _ = s.length := pyUpper_length_of_single s h
  omega

theorem clean_sequence_mem (s : List Nat) :
    ∀ c ∈ clean_sequence s, pyUpperChar c = [c] ∧ c ≠ 32 ∧ c ≠ 10 := by
  intro c hc
  have hc1 : c ∈ removeChar 10 (removeChar 32 (pyUpper s)) := List.take_subset _ _ hc
  have hc2 : c ∈ removeChar 32 (pyUpper s) ∧ c ≠ 10 := by
    have := List.mem_filter.mp hc1
    simpa using this
  have hc3 : c ∈ pyUpper s ∧ c ≠ 32 := by
    have := List.mem_filter.mp hc2.1
    simpa using this
  exact ⟨pyUpper_mem_fixed s c hc3.1, hc3.2, hc2.2⟩

theorem clean_sequence_fixed (u : List Nat) (h1 : pyUpper u = u)
    (h2 : removeChar 32 u = u) (h3 : removeChar 10 u = u)
    (h4 : u.length % 3 = 0) : clean_sequence u = u := by
  simp only [clean_sequence, h1, h2, h3, h4, Nat.sub_zero, List.take_length]

theorem clean_sequence_idem (s : List Nat) :
    clean_sequence (clean_sequence s) = clean_sequence s := by
  have hmem := clean_sequence_mem s
  have h1 : pyUpper (clean_sequence s) = clean_sequence s :=
    flatMap_pyUpperChar_eq_self _ (fun c hc => (hmem c hc).1)
  have h2 : removeChar 32 (clean_sequence s) = clean_sequence s := by
    simp only [removeChar]
    rw [List.filter_eq_self]
    intro c hc
    simpa using (hmem c hc).2.1
  have h3 : removeChar 10 (clean_sequence s) = clean_sequence s := by
    simp only [removeChar]
    rw [List.filter_eq_self]
    intro c hc
    simpa using (hmem c hc).2.2
  exact clean_sequence_fixed _ h1 h2 h3 (clean_sequence_length_mod s)

/-! ### Claim theorems: normalization -/

/-- C1 counterexample: the claimed bound `len (clean_sequence S) ≤ len S`
fails at `S = "ßß"` (two sharp-s characters, code point 223): `str.upper`
expands each to `SS`, giving `SSSS`, which trims to `SSS` of length 3 — more
than the input length 2. -/
theorem normalize_length_bound_counterexample :
    clean_sequence [223, 223] = [83, 83, 83]
    ∧ ¬ ((clean_sequence [223, 223]).length ≤ ([223, 223] : List Nat).length) := by
  decide

/-- C1 as amended: for every input string `S`, `clean_sequence S` has length
divisible by 3, and trimming removes trailing characters, so cleaning
`"ATGCA"` (length 5) yields `"ATG"` (length 3); the bound
`len (clean_sequence S) ≤ len S` holds whenever every character of `S`
uppercases to a single character (in particular for all ASCII input), though
not in general (one-to-many uppercase expansions such as ß → SS can lengthen
the string). -/
theorem normalize_length_and_trailing_trim :
    (∀ s : List Nat, (clean_sequence s).length % 3 = 0)
    ∧ (∀ s : List Nat, (∀ c ∈ s, (pyUpperChar c).length = 1) →
        (clean_sequence s).length ≤ s.length)
    ∧ clean_sequence (str "ATGCA") = str "ATG" :=
  ⟨clean_sequence_length_mod, clean_sequence_length_le, by decide⟩

/-- Witness for amended C1: the ASCII input `"ATGCA"` has only
single-character uppercase mappings, and the bound holds there. -/
theorem normalize_length_and_trailing_trim_witness :
    (clean_sequence (str "ATGCA")).length ≤ (str "ATGCA").length :=
  normalize_length_and_trailing_trim.2.1 (str "ATGCA") (by decide)

/-- C6: normalization is idempotent:
`clean_sequence (clean_sequence S) = clean_sequence S` for every string. -/
theorem normalize_idempotent (s : List Nat) :
    clean_sequence (clean_sequence s) = clean_sequence s :=
  clean_sequence_idem s

/-- C7: `clean_sequence` uppercases and removes exactly the literal space
(32) and newline (10) characters before trimming — the general conjunct shows
the kept characters are those of the uppercased input other than space and
newline.  A tab (9) and a carriage return (13) pass through (uppercased), and
invalid bases such as `N` or `Z` pass through without error.  The uppercase
step is full `str.upper`: the micro sign (181) maps to Greek capital Mu
(924) and the sharp s (223) expands to `SS`. -/
theorem normalize_removes_only_space_newline :
    (∀ s : List Nat,
      removeChar 10 (removeChar 32 (pyUpper s)) =
        (pyUpper s).filter (fun c => decide (c ≠ 32) && decide (c ≠ 10)))
    ∧ pyUpperChar 181 = [924]
    ∧ pyUpperChar 223 = [83, 83]
    ∧ clean_sequence [97, 9, 116] = [65, 9, 84]
    ∧ clean_sequence [97, 13, 116] = [65, 13, 84]
    ∧ clean_sequence [181, 9, 116] = [924, 9, 84]
    ∧ clean_sequence (str "nnz") = str "NNZ" := by
  refine ⟨fun s => ?_, by decide, by decide, by decide, by decide, by decide, by decide⟩
  simp only [removeChar, List.filter_filter]
  exact List.filter_congr (fun a _ => Bool.and_comm _ _)

/-! ### Helper lemmas about `split_into_codons` and `translate_codons` -/

theorem split_into_codons_flatten (s : List Nat) :
    (split_into_codons s).flatten = s := by
  induction s using split_into_codons.induct <;>
    simp [split_into_codons, *]

theorem split_into_codons_len3 (s : List Nat) (h : s.length % 3 = 0) :
    ∀ c ∈ split_into_codons s, c.length = 3 := by
  induction s using split_into_codons.induct with
  | case1 => simp [split_into_codons]
  | case2 a => simp at h
  | case3 a b => simp at h
  | case4 a b c rest ih =>
    intro d hd
    simp only [split_into_codons, List.mem_cons] at hd
    rcases hd with rfl | hd
    · rfl
    · refine ih ?_ d hd
      simp only [List.length_cons] at h
      omega

theorem split_into_codons_count (s : List Nat) (h : s.length % 3 = 0) :
    (split_into_codons s).length = s.length / 3 := by
  induction s using split_into_codons.induct with
  | case1 => simp [split_into_codons]
  | case2 a => simp at h
  | case3 a b => simp at h
  | case4 a b c rest ih =>
    simp only [List.length_cons] at h
    simp only [split_into_codons, List.length_cons]
    rw [ih (by omega)]
    omega

/-- C2: on a normalized sequence (length `L` with `L % 3 = 0`)
`split_into_codons` yields exactly `L / 3` codons, each of 3 characters,
whose in-order concatenation reconstructs the sequence; the empty sequence
splits into the empty list. -/
theorem split_reconstructs (s : List Nat) (h : s.length % 3 = 0) :
    (split_into_codons s).length = s.length / 3
    ∧ (∀ c ∈ split_into_codons s, c.length = 3)
    ∧ (split_into_codons s).flatten = s
    ∧ (s = [] → split_into_codons s = []) :=
  ⟨split_into_codons_count s h, split_into_codons_len3 s h,
   split_into_codons_flatten s, fun hs => by subst hs; rfl⟩

/-- Witness for C2 at the concrete input `"ATGAAA"`. -/
theorem split_reconstructs_witness :
    (str "ATGAAA").length % 3 = 0
    ∧ ((split_into_codons (str "ATGAAA")).length = (str "ATGAAA").length / 3
       ∧ (∀ c ∈ split_into_codons (str "ATGAAA"), c.length = 3)
       ∧ (split_into_codons (str "ATGAAA")).flatten = str "ATGAAA"
       ∧ (str "ATGAAA" = [] → split_into_codons (str "ATGAAA") = [])) :=
  ⟨by decide, split_reconstructs (str "ATGAAA") (by decide)⟩

theorem dictGet_length_one (t : List (List Nat × List Nat)) (k d : List Nat)
    (ht : ∀ p ∈ t, p.2.length = 1) (hd : d.length = 1) :
    (dictGet t k d).length = 1 := by
  induction t with
  | nil => exact hd
  | cons p rest ih =>
    obtain ⟨q, v⟩ := p
    simp only [dictGet]
    split
    · exact ht (q, v) (List.mem_cons_self _ _)
    · exact ih (fun p hp => ht p (List.mem_cons_of_mem _ hp))

theorem codon_table_values_single : ∀ p ∈ CODON_TABLE, p.2.length = 1 := by decide

theorem translate_codons_length (codons : List (List Nat)) :
    (translate_codons codons).length = codons.length := by
  induction codons with
  | nil => rfl
  | cons c rest ih =>
    simp only [translate_codons, List.map_cons, List.flatten_cons, List.length_append]
    have h1 : (dictGet CODON_TABLE c (str "X")).length = 1 :=
      dictGet_length_one CODON_TABLE c (str "X") codon_table_values_single (by decide)
    simp only [translate_codons] at ih
    rw [h1, ih]
    simp [Nat.add_comm]

/-- C3: `translate_codons` concatenates, per codon in order, the codon-table
entry (or the unknown marker `"X"` on a lookup miss, via the total
`dictGet`), and the resulting protein string has exactly one character per
codon; being a total function it never raises. -/
theorem translate_length_eq (codons : List (List Nat)) :
    translate_codons codons =
      (codons.map (fun c => dictGet CODON_TABLE c (str "X"))).flatten
    ∧ (translate_codons codons).length = codons.length :=
  ⟨rfl, translate_codons_length codons⟩

/-! ### Helper lemmas about `count_codon_usage` -/

theorem ddGet_bump (m : List (List Nat × Nat)) (c k : List Nat) :
    ddGet (bump m c) k = ddGet m k + (if k = c then 1 else 0) := by
  induction m with
  | nil =>
    simp only [bump, ddGet, dictGet]
    by_cases h : k = c
    · subst h
      simp
    · rw [if_neg (fun h2 : c = k => h h2.symm), if_neg h]
  | cons p rest ih =>
    obtain ⟨q, v⟩ := p
    simp only [bump]
    by_cases hqc : q = c
    · subst hqc
      simp only [if_pos rfl, ddGet, dictGet]
      by_cases hk : q = k
      · subst hk
        simp
      · rw [if_neg hk, if_neg hk, if_neg (fun h2 : k = q => hk h2.symm)]
        simp
    · simp only [if_neg hqc, ddGet, dictGet]
      by_cases hk : q = k
      · rw [if_pos hk, if_pos hk,
          if_neg (fun h2 : k = c => hqc (hk.trans h2))]
        simp
      · rw [if_neg hk, if_neg hk]
        exact ih

theorem sum_bump (m : List (List Nat × Nat)) (c : List Nat) :
    ((bump m c).map Prod.snd).sum = (m.map Prod.snd).sum + 1 := by
  induction m with
  | nil => rfl
  | cons p rest ih =>
    obtain ⟨q, v⟩ := p
    by_cases hqc : q = c <;> simp [bump, hqc, ih] <;> omega

theorem keyMem_cons (q : List Nat × Nat) (m : List (List Nat × Nat)) (k : List Nat) :
    (∃ p ∈ q :: m, p.1 = k) ↔ q.1 = k ∨ (∃ p ∈ m, p.1 = k) := by
  constructor
  · rintro ⟨p, hp, hk⟩
    rcases List.mem_cons.mp hp with rfl | hp2
    · exact Or.inl hk
    · exact Or.inr ⟨p, hp2, hk⟩
  · rintro (h | ⟨p, hp, hk⟩)
    · exact ⟨q, List.mem_cons_self _ _, h⟩
    · exact ⟨p, List.mem_cons_of_mem _ hp, hk⟩

theorem key_mem_bump (m : List (List Nat × Nat)) (c k : List Nat) :
    (∃ p ∈ bump m c, p.1 = k) ↔ (∃ p ∈ m, p.1 = k) ∨ k = c := by
  induction m with
  | nil => simp [bump, eq_comm]
  | cons p rest ih =>
    obtain ⟨q, v⟩ := p
    by_cases hqc : q = c
    · simp only [bump, if_pos hqc, keyMem_cons]
      constructor
      · rintro (h | h)
        · exact Or.inl (Or.inl h)
        · exact Or.inl (Or.inr h)
      · rintro ((h | h) | h)
        · exact Or.inl h
        · exact Or.inr h
        · exact Or.inl (hqc.trans h.symm)
    · simp only [bump, if_neg hqc, keyMem_cons, ih]
      exact or_assoc.symm

theorem val_pos_bump (m : List (List Nat × Nat)) (c : List Nat)
    (hm : ∀ p ∈ m, 1 ≤ p.2) : ∀ p ∈ bump m c, 1 ≤ p.2 := by
  induction m with
  | nil =>
    intro p hp
    simp only [bump, List.mem_singleton] at hp
    subst hp
    exact le_refl 1
  | cons q rest ih =>
    obtain ⟨q1, v⟩ := q
    intro p hp
    by_cases hqc : q1 = c
    · simp only [bump, if_pos hqc, List.mem_cons] at hp
      rcases hp with rfl | hp
      · simp
      · exact hm p (List.mem_cons_of_mem _ hp)
    · simp only [bump, if_neg hqc, List.mem_cons] at hp
      rcases hp with rfl | hp
      · exact hm (q1, v) (List.mem_cons_self _ _)
      · exact ih (fun p2 hp2 => hm p2 (List.mem_cons_of_mem _ hp2)) p hp

theorem ddGet_foldl_bump (codons : List (List Nat)) (m : List (List Nat × Nat))
    (k : List Nat) :
    ddGet (codons.foldl bump m) k = ddGet m k + codons.count k := by
  induction codons generalizing m with
  | nil => simp [List.count_nil]
  | cons c rest ih =>
    simp only [List.foldl_cons]
    rw [ih (bump m c), ddGet_bump, List.count_cons]
    by_cases h : k = c
    · simp only [if_pos h, h, beq_self_eq_true, if_true]
      omega
    · have hb : (c == k) = false := by
        simp only [beq_eq_false_iff_ne, ne_eq]
        exact fun h2 => h h2.symm
      simp only [if_neg h, hb, Bool.false_eq_true, if_false]
      omega

theorem sum_foldl_bump (codons : List (List Nat)) (m : List (List Nat × Nat)) :
    ((codons.foldl bump m).map Prod.snd).sum = (m.map Prod.snd).sum + codons.length := by
  induction codons generalizing m with
  | nil => simp
  | cons c rest ih =>
    simp only [List.foldl_cons, ih, sum_bump, List.length_cons]
    omega

theorem key_mem_foldl_bump (codons : List (List Nat)) (m : List (List Nat × Nat))
    (k : List Nat) :
    (∃ p ∈ codons.foldl bump m, p.1 = k) ↔ (∃ p ∈ m, p.1 = k) ∨ k ∈ codons := by
  induction codons generalizing m with
  | nil => simp
  | cons c rest ih =>
    simp only [List.foldl_cons, ih, key_mem_bump, List.mem_cons]
    exact or_assoc

theorem val_pos_foldl_bump (codons : List (List Nat)) (m : List (List Nat × Nat))
    (hm : ∀ p ∈ m, 1 ≤ p.2) : ∀ p ∈ codons.foldl bump m, 1 ≤ p.2 := by
  induction codons generalizing m with
  | nil => exact hm
  | cons c rest ih => exact ih (bump m c) (val_pos_bump m c hm)

/-- C4: `count_codon_usage` tallies every codon exactly once: reading any
key returns its occurrence count in the input, a key is present exactly when
the codon occurs (so every present key has count at least 1), and the counts
sum to the number of codons. -/
theorem frequency_map_counts (C : List (List Nat)) :
    (∀ k, ddGet (count_codon_usage C) k = C.count k)
    ∧ (∀ k, (∃ p ∈ count_codon_usage C, p.1 = k) ↔ k ∈ C)
    ∧ ((count_codon_usage C).map Prod.snd).sum = C.length
    ∧ (∀ p ∈ count_codon_usage C, 1 ≤ p.2) := by
  refine ⟨fun k => ?_, fun k => ?_, ?_, ?_⟩
  · simpa [ddGet, dictGet] using ddGet_foldl_bump C [] k
  · simpa using key_mem_foldl_bump C [] k
  · simpa using sum_foldl_bump C []
  · exact val_pos_foldl_bump C [] (by simp)

/-- Witness for C4 at the concrete codon list `["ATG", "ATG", "AAA"]`. -/
theorem frequency_map_counts_witness :
    ddGet (count_codon_usage [str "ATG", str "ATG", str "AAA"]) (str "ATG") =
      ([str "ATG", str "ATG", str "AAA"] : List (List Nat)).count (str "ATG")
    ∧ 1 ≤ ((str "ATG", 2) : List Nat × Nat).2 :=
  ⟨(frequency_map_counts [str "ATG", str "ATG", str "AAA"]).1 (str "ATG"),
   (frequency_map_counts [str "ATG", str "ATG", str "AAA"]).2.2.2
     (str "ATG", 2) (by decide)⟩

/-- C10: reading a codon that never occurred in the input from the
`defaultdict(int)` frequency map yields the default value 0 rather than an
error or an absent-key signal. -/
theorem frequency_map_default_zero (C : List (List Nat)) (k : List Nat)
    (h : k ∉ C) : ddGet (count_codon_usage C) k = 0 := by
  have h0 : ddGet (count_codon_usage C) k = ddGet [] k + C.count k :=
    ddGet_foldl_bump C [] k
  rw [List.count_eq_zero_of_not_mem h] at h0
  simpa [ddGet, dictGet] using h0

/-- Witness for C10: the codon `"TAA"` does not occur in `["ATG"]` and its
lookup yields 0. -/
theorem frequency_map_default_zero_witness :
    ddGet (count_codon_usage [str "ATG"]) (str "TAA") = 0 :=
  frequency_map_default_zero [str "ATG"] (str "TAA") (by decide)

/-! ### Helper lemmas about `calculate_gc_content` -/

theorem count_GC_le_length (s : List Nat) : s.count 71 + s.count 67 ≤ s.length := by
  induction s with
  | nil => simp
  | cons a t ih =>
    simp only [List.count_cons, List.length_cons]
    by_cases h71 : a = 71 <;> by_cases h67 : a = 67 <;> simp [h71, h67] <;> omega

theorem round2_nonneg (x : ℚ) (hx : 0 ≤ x) : 0 ≤ round2 x := by
  have h1 : (0 : ℤ) ≤ ⌊x * 100 + 1 / 2⌋ := Int.le_floor.mpr (by positivity)
  simp only [round2]
  apply div_nonneg _ (by norm_num)
  exact_mod_cast h1

theorem round2_le_100 (x : ℚ) (hx : x ≤ 100) : round2 x ≤ 100 := by
  have h1 : ⌊x * 100 + 1 / 2⌋ ≤ ⌊(100 : ℚ) * 100 + 1 / 2⌋ := by
    apply Int.floor_le_floor
    nlinarith
  have h2 : ⌊(100 : ℚ) * 100 + 1 / 2⌋ = 10000 := by norm_num
  rw [h2] at h1
  simp only [round2]
  rw [div_le_iff₀ (by norm_num : (0 : ℚ) < 100)]
  calc ((⌊x * 100 + 1 / 2⌋ : ℤ) : ℚ) ≤ ((10000 : ℤ) : ℚ) := by exact_mod_cast h1
    _ = 100 * 100 := by norm_num

/-- C5: `calculate_gc_content` returns
`round(((g + c) / len) * 100, 2)` where `g`, `c` count the exact characters
`G` (71) and `C` (67); the result lies in `[0, 100]`, and the division by
zero is guarded: the empty string yields 0. -/
theorem gc_content_formula_and_bounds (s : List Nat) :
    calculate_gc_content s =
      (if s.length = 0 then 0
       else round2 (((s.count 71 : ℚ) + (s.count 67 : ℚ)) / (s.length : ℚ) * 100))
    ∧ 0 ≤ calculate_gc_content s
    ∧ calculate_gc_content s ≤ 100
    ∧ (s.length = 0 → calculate_gc_content s = 0) := by
  refine ⟨rfl, ?_, ?_, ?_⟩
  · by_cases h : s.length = 0
    · simp [calculate_gc_content, h]
    · have hq : 0 ≤ ((s.count 71 : ℚ) + (s.count 67 : ℚ)) / (s.length : ℚ) * 100 := by
        positivity
      simp only [calculate_gc_content, if_neg h]
      exact round2_nonneg _ hq
  · by_cases h : s.length = 0
    · simp [calculate_gc_content, h]
    · have hlen : 0 < (s.length : ℚ) := by
        have : 0 < s.length := Nat.pos_of_ne_zero h
        exact_mod_cast this
      have hle : (s.count 71 : ℚ) + (s.count 67 : ℚ) ≤ (s.length : ℚ) := by
        have := count_GC_le_length s
        exact_mod_cast this
      have hq : ((s.count 71 : ℚ) + (s.count 67 : ℚ)) / (s.length : ℚ) * 100 ≤ 100 := by
        have h1 : ((s.count 71 : ℚ) + (s.count 67 : ℚ)) / (s.length : ℚ) ≤ 1 :=
          (div_le_one hlen).mpr hle
        nlinarith
      simp only [calculate_gc_content, if_neg h]
      exact round2_le_100 _ hq
  · intro h
    simp [calculate_gc_content, h]

/-- Witness for C5: the empty normalized sequence has GC content 0. -/
theorem gc_content_empty_witness : calculate_gc_content [] = 0 :=
  (gc_content_formula_and_bounds []).2.2.2 rfl

/-! ### Marker claims -/

theorem dictGet_miss {κ α : Type} [DecidableEq κ] (t : List (κ × α)) (k : κ) (d : α)
    (h : ¬ ∃ p ∈ t, p.1 = k) : dictGet t k d = d := by
  induction t with
  | nil => rfl
  | cons p rest ih =>
    obtain ⟨q, v⟩ := p
    simp only [dictGet]
    rw [if_neg (fun h2 : q = k => h ⟨(q, v), List.mem_cons_self _ _, h2⟩)]
    exact ih (fun ⟨p2, hp2, h2⟩ => h ⟨p2, List.mem_cons_of_mem _ hp2, h2⟩)

/-- C8: the unrecognized codon `"NNN"` is absent from the codon table and
translates to the unknown marker `"X"`, not the stop marker; the stop codons
TAA, TAG, TGA are present in the table and map to the dedicated stop marker
`"_"`, which is distinct from the unknown marker.  The lookup is a total
fallback, not an error. -/
theorem unknown_codon_marker :
    translate_codons [str "NNN"] = str "X"
    ∧ ¬ (∃ p ∈ CODON_TABLE, p.1 = str "NNN")
    ∧ dictGet CODON_TABLE (str "NNN") (str "X") = str "X"
    ∧ dictGet CODON_TABLE (str "TAA") (str "X") = str "_"
    ∧ dictGet CODON_TABLE (str "TAG") (str "X") = str "_"
    ∧ dictGet CODON_TABLE (str "TGA") (str "X") = str "_"
    ∧ str "_" ≠ str "X" := by
  refine ⟨by decide, by decide, by decide, by decide, by decide, by decide, by decide⟩

/-- C9: the unknown marker used by `translate_codons` on any table miss is
exactly the single character `X` (code point 88), which is a key of
`AA_ABBREV` distinct from the stop marker `_` (code point 95, also a key of
`AA_ABBREV`); consequently every translated codon contributes exactly one
character to the protein string. -/
theorem unknown_marker_is_X :
    (∀ k, ¬ (∃ p ∈ CODON_TABLE, p.1 = k) →
      dictGet CODON_TABLE k (str "X") = str "X")
    ∧ str "X" = [88]
    ∧ (88 : Nat) ≠ 95
    ∧ (88, str "???") ∈ AA_ABBREV
    ∧ (95, str "Stop") ∈ AA_ABBREV
    ∧ (∀ codons, (translate_codons codons).length = codons.length) := by
  exact ⟨fun k h => dictGet_miss CODON_TABLE k (str "X") h,
    by decide, by decide, by decide, by decide, translate_codons_length⟩

/-- Witness for C9: the codon `"NNA"` is absent from the table and its lookup
falls back to the unknown marker `"X"`. -/
theorem unknown_marker_is_X_witness :
    dictGet CODON_TABLE (str "NNA") (str "X") = str "X" :=
  unknown_marker_is_X.1 (str "NNA") (by decide)

end CodonAnalyzer
